import Mathlib

/-!
Verification of the dbMAP diffusion core (`src/dbmap/diffusion.py`).

The Python code computes with IEEE doubles; every finite double is a rational
number, so the numeric steps are embedded over `ℚ` (exact arithmetic), except
where a square root is required (eigenvector normalization), which is embedded
over `ℝ`, and except where the code can hit a division by zero, where numpy's
`nan`/`inf` semantics is modelled explicitly by the type `NpF` below.

The first part of the file contains the definitions, each transcribed from the
source file (line numbers refer to `src/dbmap/diffusion.py`); the second part
contains the theorems settling the claims, with their helper lemmas.
-/

open Matrix

/-! ### Definitions: kernel construction and the diffusion operator -/

/-- Row degree of a kernel matrix: `D = np.ravel(kernel.sum(axis=1))`
(diffusion.py line 356 and line 362). -/
def degreeVec {n : ℕ} (K : Matrix (Fin n) (Fin n) ℚ) : Fin n → ℚ :=
  fun i => ∑ j, K i j

/-- Symmetrized kernel: `kernel = W + W.T` (diffusion.py line 354). -/
def symmKernel {n : ℕ} (W : Matrix (Fin n) (Fin n) ℚ) : Matrix (Fin n) (Fin n) ℚ :=
  W + Wᵀ

/-- The masked power of the degree vector: `D[D != 0] = D[D != 0] ** (-self.alpha)`
(diffusion.py line 359); entries with zero degree are left at 0.  The code's
`alpha` is a Python number with default `1`; it is modelled as an integer
exponent, which covers the default and keeps the arithmetic exact. -/
def alphaDeg {n : ℕ} (alpha : ℤ) (K : Matrix (Fin n) (Fin n) ℚ) : Fin n → ℚ :=
  fun i => if degreeVec K i ≠ 0 then degreeVec K i ^ (-alpha) else 0

/-- Anisotropic (two-sided) rescaling of the kernel:
`mat = csr_matrix((D, (range(N), range(N))))` followed by
`kernel = mat.dot(kernel).dot(mat)` (diffusion.py lines 360-361). -/
def anisoKernel {n : ℕ} (alpha : ℤ) (K : Matrix (Fin n) (Fin n) ℚ) :
    Matrix (Fin n) (Fin n) ℚ :=
  Matrix.diagonal (alphaDeg alpha K) * K * Matrix.diagonal (alphaDeg alpha K)

/-- Kernel construction (diffusion.py lines 353-362): symmetrize `W`, then,
when `alpha > 0`, apply the anisotropic rescaling. -/
def kernelStep {n : ℕ} (alpha : ℤ) (W : Matrix (Fin n) (Fin n) ℚ) :
    Matrix (Fin n) (Fin n) ℚ :=
  if 0 < alpha then anisoKernel alpha (symmKernel W) else symmKernel W

/-- Masked inversion of the (recomputed) degree: `D[D != 0] = 1 / D[D != 0]`
(diffusion.py line 363); zero degrees stay 0. -/
def invDeg {n : ℕ} (K : Matrix (Fin n) (Fin n) ℚ) : Fin n → ℚ :=
  fun i => if degreeVec K i ≠ 0 then (degreeVec K i)⁻¹ else 0

/-- The diffusion operator:
`T = csr_matrix((D, (range(N), range(N))), shape=[N, N]).dot(kernel)`
(diffusion.py line 366). -/
def diffusionOperator {n : ℕ} (K : Matrix (Fin n) (Fin n) ℚ) :
    Matrix (Fin n) (Fin n) ℚ :=
  Matrix.diagonal (invDeg K) * K

/-- The full operator pipeline from the edge-weight matrix `W` to `T`
(diffusion.py lines 353-366). -/
def diffusorT {n : ℕ} (alpha : ℤ) (W : Matrix (Fin n) (Fin n) ℚ) :
    Matrix (Fin n) (Fin n) ℚ :=
  diffusionOperator (kernelStep alpha W)

/-- Concrete edge-weight matrix used by the witnesses: a single stored weight
at position (0,0), so that row 0 of the kernel has nonzero degree and row 1 is
an isolated point with zero degree. -/
def w0 : Matrix (Fin 2) (Fin 2) ℚ :=
  Matrix.of fun i j => if i = 0 ∧ j = 0 then 1 else 0

/-- Concrete non-negative edge-weight matrix used by the C2 witness. -/
def w1 : Matrix (Fin 2) (Fin 2) ℚ :=
  Matrix.of fun i j => if i = 0 then 1 + (j : ℚ) else (j : ℚ)

/-! ### Definitions: numpy scalar semantics for the distance normalization (C3) -/

/-- A numpy double as it occurs in the distance normalization: either a finite
(rational) value, or one of the special values `nan` / `+inf` that the
division `dists / adaptive_std[x]` can produce. -/
inductive NpF
  | nan : NpF
  | posInf : NpF
  | val : ℚ → NpF
deriving DecidableEq

/-- Numpy scalar division as performed by `dists = dists / adaptive_std[x]`
(diffusion.py lines 335 and 351), for the operands arising there (finite
non-negative distances and bandwidths): division by zero yields `nan` for a
zero numerator and `+inf` for a positive one, and raises no exception;
otherwise the quotient is exact.  Non-finite operands do not occur at this
call site; the catch-all returns `nan`. -/
def npDiv : NpF → NpF → NpF
  | NpF.val a, NpF.val b =>
      if b = 0 then (if a = 0 then NpF.nan else NpF.posInf) else NpF.val (a / b)
  | _, _ => NpF.nan

/-- Kernel weight `np.exp(-dists)` (diffusion.py lines 336 and 352).  The
scalar exponential on finite values is kept abstract (`expQ`), since `exp` of
a nonzero rational is irrational; on the special values, `exp(-nan) = nan` and
`exp(-inf) = 0`, following IEEE semantics. -/
def kernelWeight (expQ : ℚ → ℚ) : NpF → NpF
  | NpF.nan => NpF.nan
  | NpF.posInf => NpF.val 0
  | NpF.val q => NpF.val (expQ (-q))

/-! ### Definitions: adaptive bandwidth per row (C5) -/

/-- The adaptive neighborhood size `adaptive_k = int(np.floor(self.n_neighbors / 2))`
(diffusion.py line 326). -/
def adaptiveK (n_neighbors : ℕ) : ℕ := n_neighbors / 2

/-- Ascending sort of a row of stored neighbor distances:
`np.sort(akNN.data[akNN.indptr[i]: akNN.indptr[i + 1]])` (diffusion.py
line 329).  The stored data of the CSR row is sorted as is, explicit zero
entries (for example the self-distance) included. -/
def sortedRow (row : List ℚ) : List ℚ := List.insertionSort (· ≤ ·) row

/-- Adaptive bandwidth of one row:
`adaptive_std[i] = np.sort(akNN.data[...])[adaptive_k - 1]` (diffusion.py
lines 329-331): the `(adaptive_k - 1)`-th element (0-based) of the ascending
sort of all the row's stored distances. -/
def adaptiveStdRow (ak : ℕ) (row : List ℚ) : ℚ :=
  (sortedRow row).getD (ak - 1) 0

/-- Modelled from the spec's words, for comparison with `adaptiveStdRow`
(claim C5): "sort that row's nonzero distances ascending and take the
adaptive_k-th smallest (1-indexed)". -/
def claimedStdRow (ak : ℕ) (row : List ℚ) : ℚ :=
  (sortedRow (row.filter (fun d => d ≠ 0))).getD (ak - 1) 0

/-! ### Definitions: eigendecomposition post-processing (C4) -/

/-- Euclidean norm of a column vector, `np.linalg.norm(V[:, i])`
(diffusion.py line 378).  Eigenvector entries are embedded as reals because
the norm takes a square root. -/
noncomputable def norm2 {n : ℕ} (v : Fin n → ℝ) : ℝ :=
  Real.sqrt (∑ j, v j ^ 2)

/-- Column normalization `V[:, i] = V[:, i] / np.linalg.norm(V[:, i])`
(diffusion.py lines 377-378). -/
noncomputable def normalizeCol {n : ℕ} (v : Fin n → ℝ) : Fin n → ℝ :=
  fun i => v i / norm2 v

/-- Reordering of the eigenpairs by `inds = np.argsort(D)[::-1]`, `D = D[inds]`,
`V = V[:, inds]` (diffusion.py lines 372-374): the solver's (eigenvalue,
eigenvector) pairs are sorted by ascending eigenvalue and reversed.  The
eigenvalue and eigenvector arrays are reordered by the same index permutation,
which is modelled by sorting the zipped list. -/
def sortPairs {n : ℕ} (ps : List (ℚ × (Fin n → ℝ))) : List (ℚ × (Fin n → ℝ)) :=
  (List.insertionSort (fun a b => a.1 ≤ b.1) ps).reverse

/-- Eigen post-processing (diffusion.py lines 368-378) downstream of the
external solver call `eigs(T, ...)`: sort the eigenpairs by eigenvalue
descending, then normalize every eigenvector column to unit norm. -/
noncomputable def eigenPost {n : ℕ} (ps : List (ℚ × (Fin n → ℝ))) :
    List (ℚ × (Fin n → ℝ)) :=
  (sortPairs ps).map (fun p => (p.1, normalizeCol p.2))

instance {n : ℕ} : IsTotal (ℚ × (Fin n → ℝ)) (fun a b => a.1 ≤ b.1) :=
  ⟨fun a b => le_total a.1 b.1⟩

instance {n : ℕ} : IsTrans (ℚ × (Fin n → ℝ)) (fun a b => a.1 ≤ b.1) :=
  ⟨fun _ _ _ hab hbc => le_trans hab hbc⟩

/-! ### Definitions: multiscale transform (C6) -/

/-- `use_eigs = list(range(1, self.n_eigs))` (diffusion.py line 249): the
column indices kept by the multiscale embedding; index 0 is never in it. -/
def use_eigs (n_eigs : ℕ) : List ℕ := List.range' 1 (n_eigs - 1)

/-- `multiscale.transform` for an explicitly selected `n_eigs` (diffusion.py
lines 240-254): `mms = res["EigenVectors"].values[:, use_eigs] * (eig_vals / (1 - eig_vals))`,
with `eig_vals = np.ravel(res["EigenValues"][use_eigs])`.  The eigenvector
matrix is a list of rows; broadcasting multiplies entry `j` of each selected
row slice by `eigenvalue_j / (1 - eigenvalue_j)`. -/
def multiscaleTransform (n_eigs : ℕ) (vals : List ℚ) (vecs : List (List ℚ)) :
    List (List ℚ) :=
  vecs.map (fun row => (use_eigs n_eigs).map
    (fun j => row.getD j 0 * (vals.getD j 0 / (1 - vals.getD j 0))))

/-! ### Definitions: fit_transform control flow (C7) -/

/-- The successive stages of `Diffusor.fit_transform`. -/
inductive PipelineStep
  | neighborSearch : PipelineStep
  | bandwidthEstimation : PipelineStep
  | kernelConstruction : PipelineStep
  | operatorConstruction : PipelineStep
  | eigendecomposition : PipelineStep
  | configurationError : PipelineStep
deriving DecidableEq

/-- The straight-line body of `Diffusor.fit_transform` (diffusion.py lines
302-378) as the sequence of stages it executes.  The body contains no
validation of `n_components` against `N = data.shape[0]` and no raise
statement: whatever the parameters, it starts with the neighbor search
(lines 314-352) and first consumes `n_components` at the `eigs` call
(line 369). -/
def fitTransformTrace (n_components N : ℕ) : List PipelineStep :=
  [PipelineStep.neighborSearch, PipelineStep.bandwidthEstimation,
   PipelineStep.kernelConstruction, PipelineStep.operatorConstruction,
   PipelineStep.eigendecomposition]

/-! ### Definitions: NMSlibTransformer state across calls (C8) -/

/-- The configuration attributes of `NMSlibTransformer` relevant to repeated
`transform` calls (diffusion.py lines 38-68). -/
structure NmsState where
  n_neighbors : ℕ
deriving DecidableEq

/-- `NMSlibTransformer.transform` (diffusion.py lines 123-154) as a state
transformer: it executes `self.n_neighbors = self.n_neighbors + 1` (line 132)
and then queries `k=self.n_neighbors` neighbors per row (line 134).  The
output is modelled by the per-row neighbor count of the returned graph, which
determines its stored shape (`indptr` spacing, line 145). -/
def nmsTransform (st : NmsState) : NmsState × ℕ :=
  (⟨st.n_neighbors + 1⟩, st.n_neighbors + 1)

/-! ### Definitions: nmslib index space selection (C9) -/

/-- The metric-to-space table of `NMSlibTransformer.__init__` (diffusion.py
lines 69-86); an unsupported metric raises `KeyError`, modelled by `none`. -/
def spaceOfMetric : String → Option String
  | "sqeuclidean" => some "l2"
  | "euclidean" => some "l2"
  | "euclidean_sparse" => some "l2_sparse"
  | "cosine" => some "cosinesimil"
  | "cosine_sparse" => some "cosinesimil_sparse_fast"
  | "l1" => some "l1"
  | "l1_sparse" => some "l1_sparse"
  | "linf" => some "linf"
  | "linf_sparse" => some "linf_sparse"
  | "angular" => some "angulardist"
  | "angular_sparse" => some "angulardist_sparse_fast"
  | "levenshtein" => some "leven"
  | "hamming" => some "bit_hamming"
  | "jaccard" => some "bit_jaccard"
  | "jaccard_sparse" => some "jaccard_sparse"
  | "jansen-shan" => some "jsmetrfastapprox"
  | _ => none

/-- The space actually passed to `nmslib.init` by `NMSlibTransformer.fit`
(diffusion.py lines 111-113): the string literal `'cosinesimil_sparse_fast'`,
regardless of the metric requested at construction; `self.space` is never
read. -/
def fitIndexSpace (metric : String) : String := "cosinesimil_sparse_fast"

/-! ### Definitions: adaptive bandwidth in the exact (ann=False) branch (C10) -/

/-- The distances from a query point `x` to its `k` nearest points of the fit
set under metric `d`, as stored in one row of
`nbrs.kneighbors_graph(data, mode='distance')` (diffusion.py line 346): the
`k` smallest of the distances from `x` to every data point (the query points
are the fit points, so the zero self-distance is among the candidates). -/
def kSmallestDists {α : Type} (d : α → α → ℚ) (k : ℕ) (data : List α) (x : α) :
    List ℚ :=
  (List.insertionSort (· ≤ ·) (data.map (d x))).take k

/-- Row-wise maximum of the neighbor-distance graph, `.max(axis=1)`
(diffusion.py line 346). -/
def rowMax (l : List ℚ) : ℚ := l.foldr max 0

/-- The adaptive bandwidth of the exact branch (diffusion.py lines 343-347):
a second `NearestNeighbors` fit with `n_neighbors=int(adaptive_k)` and
`metric='euclidean'` (a string literal, line 345), then the row maximum of its
distance graph. -/
def nonAnnAdaptiveStd {α : Type} (euclid : α → α → ℚ) (n_neighbors : ℕ)
    (data : List α) : List ℚ :=
  data.map (fun x => rowMax (kSmallestDists euclid (adaptiveK n_neighbors) data x))

/-- The bandwidth computation inside `fit_transform`'s `ann == False` branch
(diffusion.py lines 339-352): the main kNN graph is built with
`metric=self.knn_dist` (line 340), but the bandwidth search hardcodes
`metric='euclidean'` (line 345), so only `metricOf "euclidean"` is consulted,
whatever `knn_dist` holds. -/
def diffusorNonAnnStd {α : Type} (metricOf : String → α → α → ℚ)
    (knn_dist : String) (n_neighbors : ℕ) (data : List α) : List ℚ :=
  nonAnnAdaptiveStd (metricOf "euclidean") n_neighbors data

/-! ### Theorems: C1 and C2 -/

/-- Row `i` of `diagonal v * K` is `v i` times row `i` of `K`. -/
theorem diag_mul_apply {n : ℕ} (v : Fin n → ℚ) (K : Matrix (Fin n) (Fin n) ℚ)
    (i j : Fin n) : (Matrix.diagonal v * K) i j = v i * K i j :=
  Matrix.diagonal_mul v K i j

/-- C1: every row of the diffusion operator `T` whose kernel degree is nonzero
sums to 1, and every row whose kernel degree is zero is all-zero.  (Over the
exact-arithmetic embedding the row sum is exactly 1.) -/
theorem C1_row_stochastic {n : ℕ} (alpha : ℤ) (W : Matrix (Fin n) (Fin n) ℚ)
    (i : Fin n) :
    (degreeVec (kernelStep alpha W) i ≠ 0 → ∑ j, diffusorT alpha W i j = 1) ∧
    (degreeVec (kernelStep alpha W) i = 0 → ∀ j, diffusorT alpha W i j = 0) := by
  set K := kernelStep alpha W with hK
  constructor
  · intro hdeg
    have hrow : ∀ j, diffusorT alpha W i j = invDeg K i * K i j := by
      intro j
      simp only [diffusorT, diffusionOperator, ← hK, diag_mul_apply]
    calc ∑ j, diffusorT alpha W i j = ∑ j, invDeg K i * K i j :=
          Finset.sum_congr rfl (fun j _ => hrow j)
      _ = invDeg K i * degreeVec K i := by rw [← Finset.mul_sum]; rfl
      _ = (degreeVec K i)⁻¹ * degreeVec K i := by rw [invDeg, if_pos hdeg]
      _ = 1 := inv_mul_cancel₀ hdeg
  · intro hdeg j
    have hz : invDeg K i = 0 := by rw [invDeg]; simp [hdeg]
    simp only [diffusorT, diffusionOperator, ← hK, diag_mul_apply, hz, zero_mul]

/-- Witness for C1 at the concrete matrix `w0` with `alpha = 1`: row 0 has
nonzero degree and row sum 1, row 1 has zero degree and stays zero. -/
theorem C1_row_stochastic_witness :
    (degreeVec (kernelStep 1 w0) 0 ≠ 0 ∧ ∑ j, diffusorT 1 w0 0 j = 1) ∧
    (degreeVec (kernelStep 1 w0) 1 = 0 ∧ diffusorT 1 w0 1 1 = 0) :=
  ⟨⟨by norm_num [degreeVec, kernelStep, anisoKernel, symmKernel, alphaDeg, w0,
      Fin.sum_univ_two, Matrix.mul_apply, Matrix.diagonal, Matrix.transpose_apply,
      Matrix.add_apply, Matrix.of_apply],
    (C1_row_stochastic 1 w0 0).1
      (by norm_num [degreeVec, kernelStep, anisoKernel, symmKernel, alphaDeg, w0,
        Fin.sum_univ_two, Matrix.mul_apply, Matrix.diagonal, Matrix.transpose_apply,
        Matrix.add_apply, Matrix.of_apply])⟩,
   ⟨by norm_num [degreeVec, kernelStep, anisoKernel, symmKernel, alphaDeg, w0,
      Fin.sum_univ_two, Matrix.mul_apply, Matrix.diagonal, Matrix.transpose_apply,
      Matrix.add_apply, Matrix.of_apply],
    (C1_row_stochastic 1 w0 1).2
      (by norm_num [degreeVec, kernelStep, anisoKernel, symmKernel, alphaDeg, w0,
        Fin.sum_univ_two, Matrix.mul_apply, Matrix.diagonal, Matrix.transpose_apply,
        Matrix.add_apply, Matrix.of_apply]) 1⟩⟩

/-- The symmetrized kernel is exactly symmetric. -/
theorem symmKernel_isSymm {n : ℕ} (W : Matrix (Fin n) (Fin n) ℚ) :
    (symmKernel W)ᵀ = symmKernel W := by
  simp [symmKernel, Matrix.transpose_add, add_comm]

/-- C2: for every non-negative edge-weight matrix `W` (the stored weights are
values of `exp`, hence non-negative), the constructed kernel — `W + Wᵀ`,
followed by the two-sided anisotropic rescaling when `alpha > 0` — is exactly
symmetric and entrywise non-negative. -/
theorem C2_kernel_symmetric_nonneg {n : ℕ} (alpha : ℤ)
    (W : Matrix (Fin n) (Fin n) ℚ) (hW : ∀ i j, 0 ≤ W i j) :
    (kernelStep alpha W)ᵀ = kernelStep alpha W ∧
    ∀ i j, 0 ≤ kernelStep alpha W i j := by
  have hsymm := symmKernel_isSymm W
  have hnn : ∀ i j, 0 ≤ symmKernel W i j := by
    intro i j
    have h1 := hW i j
    have h2 := hW j i
    simp only [symmKernel, Matrix.add_apply, Matrix.transpose_apply]
    linarith
  have hv : ∀ i, 0 ≤ alphaDeg alpha (symmKernel W) i := by
    intro i
    rw [alphaDeg]
    by_cases h : degreeVec (symmKernel W) i ≠ 0
    · rw [if_pos h]
      exact zpow_nonneg (Finset.sum_nonneg (fun j _ => hnn i j)) _
    · rw [if_neg h]
  by_cases halpha : 0 < alpha
  · constructor
    · rw [kernelStep, if_pos halpha, anisoKernel]
      rw [Matrix.transpose_mul, Matrix.transpose_mul, Matrix.diagonal_transpose,
        hsymm, Matrix.mul_assoc]
    · intro i j
      rw [kernelStep, if_pos halpha, anisoKernel, Matrix.mul_diagonal,
        diag_mul_apply]
      exact mul_nonneg (mul_nonneg (hv i) (hnn i j)) (hv j)
  · rw [kernelStep, if_neg halpha]
    exact ⟨hsymm, hnn⟩

/-- Witness for C2 at the concrete non-negative matrix `w1` with `alpha = 1`. -/
theorem C2_kernel_symmetric_nonneg_witness :
    (∀ i j, 0 ≤ w1 i j) ∧
    ((kernelStep 1 w1)ᵀ = kernelStep 1 w1 ∧ ∀ i j, 0 ≤ kernelStep 1 w1 i j) :=
  ⟨by intro i j; fin_cases i <;> fin_cases j <;> norm_num [w1],
    C2_kernel_symmetric_nonneg 1 w1
      (by intro i j; fin_cases i <;> fin_cases j <;> norm_num [w1])⟩

/-! ### Theorems: C3 -/

/-- C3 counterexample: on a stored edge with distance 0 in a row whose
bandwidth is 0 (duplicated points), the code's normalized distance is `nan`,
not 0 as the claim states. -/
theorem C3_counterexample :
    npDiv (NpF.val 0) (NpF.val 0) = NpF.nan ∧ NpF.nan ≠ NpF.val 0 := by
  constructor
  · rfl
  · intro h
    exact NpF.noConfusion h

/-- C3 amended: the code divides without guarding `σ_i = 0`: a zero-distance
edge with zero bandwidth gets normalized distance `nan` (and kernel weight
`nan`, not 1); a positive-distance edge with zero bandwidth gets `+inf` (and
kernel weight 0); with nonzero bandwidth the quotient is `d / σ`.  No
exception is raised in any case (the division is total). -/
theorem C3_sigma_zero_division :
    npDiv (NpF.val 0) (NpF.val 0) = NpF.nan ∧
    (∀ d : ℚ, 0 < d → npDiv (NpF.val d) (NpF.val 0) = NpF.posInf) ∧
    (∀ d s : ℚ, s ≠ 0 → npDiv (NpF.val d) (NpF.val s) = NpF.val (d / s)) ∧
    (∀ expQ : ℚ → ℚ,
      kernelWeight expQ (npDiv (NpF.val 0) (NpF.val 0)) = NpF.nan ∧
      kernelWeight expQ (npDiv (NpF.val 1) (NpF.val 0)) = NpF.val 0) := by
  refine ⟨rfl, ?_, ?_, ?_⟩
  · intro d hd
    simp [npDiv, hd.ne']
  · intro d s hs
    simp [npDiv, hs]
  · intro expQ
    constructor <;> rfl

/-- Witness for C3's amended statement at concrete inputs `d = 1`, `σ = 0`
and `d = 1`, `σ = 2`. -/
theorem C3_sigma_zero_division_witness :
    (0 < (1 : ℚ) ∧ npDiv (NpF.val 1) (NpF.val 0) = NpF.posInf) ∧
    ((2 : ℚ) ≠ 0 ∧ npDiv (NpF.val 1) (NpF.val 2) = NpF.val (1 / 2)) :=
  ⟨⟨by norm_num, C3_sigma_zero_division.2.1 1 (by norm_num)⟩,
   ⟨by norm_num, C3_sigma_zero_division.2.2.1 1 2 (by norm_num)⟩⟩

/-! ### Theorems: C5 -/

/-- C5 counterexample: a row storing distances `[0, 1, 2]` (the zero being the
explicit self-distance entry of the CSR row) with `n_neighbors = 5`, so
`adaptive_k = 2`.  The code takes the 2nd smallest of all stored distances,
which is 1; the claim's "2nd smallest of the nonzero distances" would be 2. -/
theorem C5_counterexample :
    adaptiveStdRow (adaptiveK 5) [0, 1, 2] = 1 ∧
    claimedStdRow (adaptiveK 5) [0, 1, 2] = 2 ∧
    adaptiveStdRow (adaptiveK 5) [0, 1, 2] ≠ claimedStdRow (adaptiveK 5) [0, 1, 2] := by
  refine ⟨?_, ?_, ?_⟩ <;> decide

/-- C5 amended: the bandwidth `σ_i` is the `adaptive_k`-th smallest (1-indexed)
of ALL of row `i`'s stored distances, explicit zero entries included, with
`adaptive_k = ⌊n_neighbors / 2⌋`: for any ascending-sorted rearrangement `l`
of the row, `σ_i` is the element of `l` at 1-indexed position `adaptive_k`. -/
theorem C5_bandwidth_order_statistic (nn : ℕ) (row l : List ℚ)
    (hp : l.Perm row) (hs : l.Sorted (· ≤ ·)) :
    adaptiveStdRow (adaptiveK nn) row = l.getD (adaptiveK nn - 1) 0 := by
  have h1 : sortedRow row = l :=
    List.eq_of_perm_of_sorted ((List.perm_insertionSort _ row).trans hp.symm)
      (List.sorted_insertionSort _ row) hs
  rw [adaptiveStdRow, h1]

/-- Witness for C5's amended statement: row `[2, 0, 1]`, sorted rearrangement
`[0, 1, 2]`, `n_neighbors = 5` (so `adaptive_k = 2`); the bandwidth is 1. -/
theorem C5_bandwidth_order_statistic_witness :
    (List.Perm [(0 : ℚ), 1, 2] [2, 0, 1] ∧
      List.Sorted (· ≤ ·) [(0 : ℚ), 1, 2]) ∧
    adaptiveStdRow (adaptiveK 5) [2, 0, 1] = ([(0 : ℚ), 1, 2]).getD (adaptiveK 5 - 1) 0 :=
  ⟨⟨by decide, by decide⟩,
    C5_bandwidth_order_statistic 5 [2, 0, 1] [0, 1, 2] (by decide) (by decide)⟩

/-! ### Theorems: C4 -/

/-- Normalizing a nonzero column yields a unit-norm column. -/
theorem norm2_normalizeCol {n : ℕ} (v : Fin n → ℝ) (hv : v ≠ 0) :
    norm2 (normalizeCol v) = 1 := by
  obtain ⟨i0, hi0⟩ := Function.ne_iff.mp hv
  have hS : 0 < ∑ j, v j ^ 2 :=
    Finset.sum_pos' (fun j _ => sq_nonneg (v j))
      ⟨i0, Finset.mem_univ i0, pow_two_pos_of_ne_zero hi0⟩
  have hsqrt : Real.sqrt (∑ j, v j ^ 2) ^ 2 = ∑ j, v j ^ 2 :=
    Real.sq_sqrt hS.le
  have hsum : ∑ j, normalizeCol v j ^ 2 = 1 := by
    simp only [normalizeCol, norm2, div_pow]
    rw [← Finset.sum_div, hsqrt, div_self hS.ne']
  rw [norm2, hsum, Real.sqrt_one]

/-- C4: after the post-processing of the solver output, the eigenvalue
sequence is sorted in non-increasing order and every returned eigenvector
column has Euclidean norm exactly 1, provided the solver returned no zero
column (an eigensolver returns eigenvectors, which are nonzero). -/
theorem C4_eigen_sorted_unit_norm {n : ℕ} (ps : List (ℚ × (Fin n → ℝ)))
    (h : ∀ p ∈ ps, p.2 ≠ 0) :
    List.Sorted (fun a b : ℚ => b ≤ a) ((eigenPost ps).map Prod.fst) ∧
    ∀ p ∈ eigenPost ps, norm2 p.2 = 1 := by
  have hs := List.sorted_insertionSort (fun a b : ℚ × (Fin n → ℝ) => a.1 ≤ b.1) ps
  constructor
  · rw [List.Sorted, eigenPost, sortPairs, List.map_map]
    have hcomp :
        (Prod.fst ∘ fun p : ℚ × (Fin n → ℝ) => (p.1, normalizeCol p.2)) = Prod.fst :=
      rfl
    rw [hcomp, List.map_reverse, List.pairwise_reverse, List.pairwise_map]
    exact hs
  · intro p hp
    obtain ⟨q, hq, rfl⟩ := List.mem_map.mp hp
    have hq' : q ∈ ps := by
      rw [sortPairs, List.mem_reverse] at hq
      exact (List.perm_insertionSort _ ps).mem_iff.mp hq
    exact norm2_normalizeCol q.2 (h q hq')

/-- Witness for C4 at a one-pair solver output with the nonzero column
`fun _ => 2`. -/
theorem C4_eigen_sorted_unit_norm_witness :
    (∀ p ∈ [((1 : ℚ), fun _ : Fin 1 => (2 : ℝ))], p.2 ≠ 0) ∧
    (List.Sorted (fun a b : ℚ => b ≤ a)
        ((eigenPost [((1 : ℚ), fun _ : Fin 1 => (2 : ℝ))]).map Prod.fst) ∧
      ∀ p ∈ eigenPost [((1 : ℚ), fun _ : Fin 1 => (2 : ℝ))], norm2 p.2 = 1) := by
  have hyp : ∀ p ∈ [((1 : ℚ), fun _ : Fin 1 => (2 : ℝ))], p.2 ≠ 0 := by
    intro p hp
    rw [List.mem_singleton] at hp
    subst hp
    intro h0
    have h2 := congrFun h0 0
    norm_num at h2
  exact ⟨hyp, C4_eigen_sorted_unit_norm _ hyp⟩

/-! ### Theorems: C6 -/

/-- The `j`-th kept column index is `1 + j`: eigenvector 0 is always dropped. -/
theorem use_eigs_getD (m j : ℕ) (hj : j < m - 1) :
    (use_eigs m).getD j 0 = 1 + j := by
  rw [use_eigs, List.getD_eq_getElem _ _ (by simpa using hj)]
  simp

/-- A `getD` at an in-bounds index commutes with `map`. -/
theorem getD_map_of_lt {α β : Type} (f : α → β) (l : List α) (j : ℕ) (d : β)
    (d' : α) (hj : j < l.length) : (l.map f).getD j d = f (l.getD j d') := by
  rw [List.getD_eq_getElem _ _ (by simpa using hj), List.getElem_map,
    List.getD_eq_getElem _ _ hj]

/-- C6: for a selected dimension `m = n_eigs`, the multiscale embedding has
one row per sample and `m - 1` columns, and its entry at row `i`, column `j`
(0-based) is entry `j + 1` of eigenvector row `i` scaled by
`eigenvalue_(j+1) / (1 - eigenvalue_(j+1))`; eigenvector 0 is always dropped. -/
theorem C6_multiscale_embedding (m : ℕ) (vals : List ℚ) (vecs : List (List ℚ)) :
    (multiscaleTransform m vals vecs).length = vecs.length ∧
    (∀ r ∈ multiscaleTransform m vals vecs, r.length = m - 1) ∧
    (∀ i j, i < vecs.length → j < m - 1 →
      ((multiscaleTransform m vals vecs).getD i []).getD j 0 =
        (vecs.getD i []).getD (j + 1) 0 *
          (vals.getD (j + 1) 0 / (1 - vals.getD (j + 1) 0))) := by
  refine ⟨List.length_map _ _, ?_, ?_⟩
  · intro r hr
    obtain ⟨row, hrow, rfl⟩ := List.mem_map.mp hr
    simp [use_eigs]
  · intro i j hi hj
    rw [multiscaleTransform, getD_map_of_lt _ _ _ _ [] hi,
      getD_map_of_lt _ _ _ _ 0 (by simpa [use_eigs] using hj),
      use_eigs_getD m j hj, Nat.add_comm 1 j]

/-- Witness for C6 at `m = 3`, concrete eigenvalues and a 2-row eigenvector
matrix: entry (0,0) of the embedding is `vecs[0][1] * (vals[1] / (1 - vals[1]))`. -/
theorem C6_multiscale_embedding_witness :
    (0 : ℕ) < 2 ∧ (0 : ℕ) < 3 - 1 ∧
    ((multiscaleTransform 3 [1/2, 1/3, 1/5] [[1, 2, 3], [4, 5, 6]]).getD 0 []).getD 0 0 =
      (([[1, 2, 3], [4, 5, 6]] : List (List ℚ)).getD 0 []).getD 1 0 *
        (([1/2, 1/3, 1/5] : List ℚ).getD 1 0 / (1 - ([1/2, 1/3, 1/5] : List ℚ).getD 1 0)) :=
  ⟨by norm_num, by norm_num,
    (C6_multiscale_embedding 3 [1/2, 1/3, 1/5] [[1, 2, 3], [4, 5, 6]]).2.2 0 0
      (by norm_num) (by norm_num)⟩

/-! ### Theorems: C7 -/

/-- C7 counterexample: with `n_components = 10 ≥ N = 5` the pipeline does not
raise a ConfigurationError before the neighbor search — its first stage is the
neighbor search and no configuration-error stage occurs at all. -/
theorem C7_counterexample :
    (5 : ℕ) ≤ 10 ∧
    (fitTransformTrace 10 5).head? = some PipelineStep.neighborSearch ∧
    PipelineStep.configurationError ∉ fitTransformTrace 10 5 := by
  refine ⟨by norm_num, rfl, ?_⟩
  decide

/-- C7 amended: `fit_transform` performs no validation of `n_components`
against the sample count: for every parameter pair the neighbor search is the
first executed stage and no configuration error is ever raised (an oversized
`n_components` only surfaces later, inside the external eigensolver). -/
theorem C7_no_validation (n_components N : ℕ) :
    (fitTransformTrace n_components N).head? = some PipelineStep.neighborSearch ∧
    PipelineStep.configurationError ∉ fitTransformTrace n_components N := by
  exact ⟨rfl, by simp [fitTransformTrace]⟩

/-! ### Theorems: C8 -/

/-- C8 counterexample: a transformer constructed with `n_neighbors = 30` has
`n_neighbors = 31` after one `transform` call (the configuration field is
mutated), and a second call with the same input returns a graph with a
different per-row neighbor count than the first. -/
theorem C8_counterexample :
    (nmsTransform ⟨30⟩).1.n_neighbors ≠ 30 ∧
    (nmsTransform (nmsTransform ⟨30⟩).1).2 ≠ (nmsTransform ⟨30⟩).2 := by
  constructor <;> decide

/-- C8 amended: `NMSlibTransformer.transform` increments the configuration
field `n_neighbors` on every call, so repeated calls on identical inputs use
successively larger neighbor counts and return different results; invocations
are not independent. -/
theorem C8_transform_mutates (st : NmsState) :
    (nmsTransform st).1.n_neighbors = st.n_neighbors + 1 ∧
    (nmsTransform (nmsTransform st).1).2 ≠ (nmsTransform st).2 := by
  refine ⟨rfl, ?_⟩
  simp [nmsTransform]

/-! ### Theorems: C9 -/

/-- C9: the constructor maps the requested metric `'euclidean'` to the nmslib
space `'l2'` and stores it, but `fit` builds the index in the hardcoded space
`'cosinesimil_sparse_fast'` for every metric, so the index is not built in the
space of the requested metric. -/
theorem C9_index_space_hardcoded :
    spaceOfMetric "euclidean" = some "l2" ∧
    (∀ m : String, fitIndexSpace m = "cosinesimil_sparse_fast") ∧
    fitIndexSpace "euclidean" ≠ "l2" := by
  refine ⟨rfl, fun _ => rfl, ?_⟩
  decide

/-! ### Theorems: C10 -/

/-- The fold `foldr max 0` of a sorted list of non-negative rationals is its
last element. -/
theorem sorted_foldr_max (l : List ℚ) :
    l.Sorted (· ≤ ·) → (∀ a ∈ l, 0 ≤ a) → l ≠ [] →
    l.foldr max 0 = l.getD (l.length - 1) 0 := by
  induction l with
  | nil => intro _ _ hne; exact absurd rfl hne
  | cons a t ih =>
    intro hs hn _
    cases t with
    | nil =>
      simp [max_eq_left (hn a (List.mem_cons_self a []))]
    | cons b t' =>
      have hs' : (b :: t').Sorted (· ≤ ·) := hs.of_cons
      have hn' : ∀ x ∈ b :: t', 0 ≤ x := fun x hx => hn x (List.mem_cons_of_mem a hx)
      have hih := ih hs' hn' (by simp)
      have hlt : (b :: t').length - 1 < (b :: t').length := by simp
      have hmem : (b :: t').getD ((b :: t').length - 1) 0 ∈ b :: t' := by
        rw [List.getD_eq_getElem _ _ hlt]
        exact List.getElem_mem hlt
      have hle : a ≤ (b :: t').getD ((b :: t').length - 1) 0 :=
        (List.sorted_cons.mp hs).1 _ hmem
      calc (a :: b :: t').foldr max 0 = max a ((b :: t').foldr max 0) := rfl
        _ = max a ((b :: t').getD ((b :: t').length - 1) 0) := by rw [hih]
        _ = (b :: t').getD ((b :: t').length - 1) 0 := max_eq_right hle
        _ = (a :: b :: t').getD ((a :: b :: t').length - 1) 0 := by
            simp [List.getD_cons_succ]

/-- The maximum of the `k` smallest elements of a sorted list of non-negative
rationals is the element at (0-based) position `k - 1`. -/
theorem foldr_max_take (l : List ℚ) (k : ℕ) (hs : l.Sorted (· ≤ ·))
    (hn : ∀ a ∈ l, 0 ≤ a) (hk1 : 1 ≤ k) (hk2 : k ≤ l.length) :
    (l.take k).foldr max 0 = l.getD (k - 1) 0 := by
  have hlen : (l.take k).length = k := by
    rw [List.length_take]
    exact Nat.min_eq_left hk2
  have hsub : (l.take k).Sublist l := List.take_sublist k l
  have hs' : (l.take k).Sorted (· ≤ ·) := List.Pairwise.sublist hsub hs
  have hn' : ∀ a ∈ l.take k, 0 ≤ a := fun a ha => hn a (hsub.mem ha)
  have hne : l.take k ≠ [] := by
    intro h
    rw [h] at hlen
    simp at hlen
    omega
  rw [sorted_foldr_max (l.take k) hs' hn' hne, hlen]
  have hk1' : k - 1 < k := by omega
  have hk2' : k - 1 < l.length := by omega
  rw [List.getD_eq_getElem _ _ (by rw [hlen]; exact hk1'),
    List.getD_eq_getElem _ _ hk2']
  exact List.getElem_take l

/-- C10: in the `ann=False` branch, the adaptive bandwidth is computed from
`metricOf "euclidean"` regardless of the configured `knn_dist` — swapping
`knn_dist` leaves σ unchanged — and each `σ_i` is the `adaptive_k`-th smallest
(1-indexed) Euclidean distance from point `i` to the dataset, i.e. the
maximum distance to its `⌊n_neighbors/2⌋` Euclidean nearest neighbors. -/
theorem C10_bandwidth_metric_hardcoded {α : Type} (metricOf : String → α → α → ℚ)
    (knn1 knn2 : String) (nn : ℕ) (data : List α)
    (hd : ∀ x y, 0 ≤ metricOf "euclidean" x y)
    (hk1 : 1 ≤ adaptiveK nn) (hk2 : adaptiveK nn ≤ data.length) :
    diffusorNonAnnStd metricOf knn1 nn data = diffusorNonAnnStd metricOf knn2 nn data ∧
    diffusorNonAnnStd metricOf knn1 nn data = data.map (fun x =>
      (List.insertionSort (· ≤ ·) (data.map (metricOf "euclidean" x))).getD
        (adaptiveK nn - 1) 0) := by
  refine ⟨rfl, ?_⟩
  rw [diffusorNonAnnStd, nonAnnAdaptiveStd]
  apply List.map_congr_left
  intro x _
  set s := List.insertionSort (· ≤ ·) (data.map (metricOf "euclidean" x)) with hsdef
  have hperm : s.Perm (data.map (metricOf "euclidean" x)) :=
    List.perm_insertionSort _ _
  have hslen : s.length = data.length := by
    rw [hperm.length_eq, List.length_map]
  have hsorted : s.Sorted (· ≤ ·) := List.sorted_insertionSort _ _
  have hnn : ∀ a ∈ s, 0 ≤ a := by
    intro a ha
    have := hperm.mem_iff.mp ha
    obtain ⟨y, _, rfl⟩ := List.mem_map.mp this
    exact hd x y
  rw [rowMax, kSmallestDists, ← hsdef]
  exact foldr_max_take s (adaptiveK nn) hsorted hnn hk1 (by rw [hslen]; exact hk2)

/-- Witness for C10: three rational points `[0, 3, 1]`, absolute-difference
metric for every identifier, `n_neighbors = 4` (so `adaptive_k = 2`), and two
different `knn_dist` identifiers. -/
theorem C10_bandwidth_metric_hardcoded_witness :
    (∀ x y : ℚ, 0 ≤ (fun _ : String => fun a b : ℚ => |a - b|) "euclidean" x y) ∧
    1 ≤ adaptiveK 4 ∧ adaptiveK 4 ≤ ([(0 : ℚ), 3, 1]).length ∧
    (diffusorNonAnnStd (fun _ : String => fun a b : ℚ => |a - b|) "cosine" 4 [0, 3, 1] =
        diffusorNonAnnStd (fun _ : String => fun a b : ℚ => |a - b|) "euclidean" 4 [0, 3, 1] ∧
      diffusorNonAnnStd (fun _ : String => fun a b : ℚ => |a - b|) "cosine" 4 [0, 3, 1] =
        ([(0 : ℚ), 3, 1]).map (fun x =>
          (List.insertionSort (· ≤ ·) (([(0 : ℚ), 3, 1]).map
            ((fun _ : String => fun a b : ℚ => |a - b|) "euclidean" x))).getD
              (adaptiveK 4 - 1) 0)) :=
  ⟨fun x y => abs_nonneg (x - y), by decide, by decide,
    C10_bandwidth_metric_hardcoded (fun _ : String => fun a b : ℚ => |a - b|)
      "cosine" "euclidean" 4 [0, 3, 1] (fun x y => abs_nonneg (x - y))
      (by decide) (by decide)⟩